import Mathlib

/-!
# Verification of the recipe indexer (`index_recipes.py`)

Shallow embedding of the single-file recipe indexing pipeline:
discovery of recipe files under a root directory, per-format text
extraction (the PDF/HTML libraries are treated as black boxes, as the
design document states), preview generation, copying of source files
under generated names, and serialization of the record collection.

Python strings are modelled as `List Char` (one element per code
point, matching `len` and slicing on `str`); the wrapper functions on
`String` mirror the Python signatures.
-/

namespace RecipeIndexer

/-! ## Whitespace and the preview generator (`create_preview`, lines 58–65) -/

/-- Python's Unicode whitespace predicate (`Py_UNICODE_ISSPACE`), which is
what both `re`'s whitespace class and `str.strip()` use on `str` inputs:
U+0009–U+000D, U+001C–U+001F, space, U+0085, U+00A0, U+1680,
U+2000–U+200A, U+2028, U+2029, U+202F, U+205F, U+3000. -/
def pyIsSpace (c : Char) : Bool :=
  let n := c.toNat
  (9 ≤ n && n ≤ 13) || (n == 32) || (28 ≤ n && n ≤ 31) || (n == 133) ||
    (n == 160) || (n == 5760) || (8192 ≤ n && n ≤ 8202) || (n == 8232) ||
    (n == 8233) || (n == 8239) || (n == 8287) || (n == 12288)

/-- One pass of the substitution of every maximal whitespace run by a single
space character, as performed by the regular-expression substitution on
line 62.  The flag records whether the previous character belonged to a
whitespace run (so the run's single output space has already been
emitted). -/
def collapseAux : List Char → Bool → List Char
  | [], _ => []
  | c :: rest, prev =>
    if pyIsSpace c then
      if prev then collapseAux rest true else ' ' :: collapseAux rest true
    else
      c :: collapseAux rest false

/-- Replace every maximal whitespace run by one space (line 62's regex
substitution). -/
def collapseWs (l : List Char) : List Char :=
  collapseAux l false

/-- Python `str.strip()`: remove leading and trailing whitespace. -/
def stripWs (l : List Char) : List Char :=
  ((l.dropWhile pyIsSpace).reverse.dropWhile pyIsSpace).reverse

/-- The `cleaned` value of line 62: collapse whitespace runs, then strip. -/
def cleanChars (l : List Char) : List Char :=
  stripWs (collapseWs l)

/-- Python `s.rsplit(' ', 1)[0]`: everything before the last space
character, or the whole string when it contains no space. -/
def rsplitBody (s : List Char) : List Char :=
  if ' ' ∈ s then ((s.reverse.dropWhile (fun c => c ≠ ' ')).tail).reverse
  else s

/-- `create_preview` on the character-list model (lines 58–65): clean the
text; return it when within the bound, otherwise truncate to the bound,
drop the trailing partial word at the last space, and append `...`. -/
def previewChars (text : List Char) (maxLength : Nat) : List Char :=
  let cleaned := cleanChars text
  if cleaned.length ≤ maxLength then cleaned
  else rsplitBody (cleaned.take maxLength) ++ ['.', '.', '.']

/-- `create_preview(text, max_length)` (the source calls it with the
default `max_length = 200`). -/
def create_preview (text : String) (maxLength : Nat) : String :=
  ⟨previewChars text.data maxLength⟩

/-! ### Cleanliness predicate

`isCleanText` states what "already whitespace-collapsed and trimmed"
means: the only whitespace character occurring is a single space, no two
spaces are adjacent, and the text neither starts nor ends with
whitespace. -/

/-- Local condition at one character: a whitespace character must be a
plain space, and a space must not be followed by further whitespace. -/
def pairOk (c : Char) : Option Char → Bool
  | some d => (!pyIsSpace c || c == ' ') && !(c == ' ' && pyIsSpace d)
  | none => !pyIsSpace c || c == ' '

/-- Every whitespace character is a single space and no space is followed
by whitespace. -/
def noBadWs : List Char → Bool
  | [] => true
  | c :: rest => pairOk c rest.head? && noBadWs rest

/-- An end position (head or last) is acceptable when it is absent or not
whitespace. -/
def endOk : Option Char → Bool
  | some c => !pyIsSpace c
  | none => true

/-- The text is whitespace-collapsed and trimmed: only single,
non-adjacent plain spaces, none at either end. -/
def isCleanText (l : List Char) : Bool :=
  noBadWs l && endOk l.head? && endOk l.getLast?

/-! ## Safe copy names (`index_recipes`, lines 119–127) -/

/-- Decimal digit character for a value below ten. -/
def digitChar (d : Nat) : Char :=
  Char.ofNat (48 + d)

/-- Decimal digits by repeated division, with fuel making the recursion
structural; the fallback emits the last digit and is reached only for
single-digit numbers when the fuel is the number itself. -/
def natDigitsAux : Nat → Nat → List Char
  | 0, n => [digitChar (n % 10)]
  | fuel + 1, n =>
    if n < 10 then [digitChar n]
    else natDigitsAux fuel (n / 10) ++ [digitChar (n % 10)]

/-- Decimal digits of a natural number, most significant first (the digits
of Python's `"%d"` formatting). -/
def natDigits (n : Nat) : List Char :=
  natDigitsAux n n

/-- Python `f"{n:03d}"` for a natural number: the decimal digits,
left-padded with zeros to a minimum width of three. -/
def pad3 (n : Nat) : List Char :=
  List.replicate (3 - (natDigits n).length) '0' ++ natDigits n

/-- Evaluate a digit string back to a number; inverse of `natDigits` used
to prove injectivity of the padded sequence numbers. -/
def fromDigits (l : List Char) : Nat :=
  l.foldl (fun a c => a * 10 + (c.toNat - 48)) 0

/-- `str.replace(' ', '_')` on one character. -/
def spaceToUnderscore (c : Char) : Char :=
  if c = ' ' then '_' else c

/-- The safe copy filename of lines 121–122:
`f"{idx:03d}_{name}".replace(' ', '_')` on the character level. -/
def safeChars (idx : Nat) (name : List Char) : List Char :=
  (pad3 idx ++ '_' :: name).map spaceToUnderscore

/-- The safe copy filename as a string, as built on lines 121–122. -/
def safeFilename (idx : Nat) (name : String) : String :=
  ⟨safeChars idx name.data⟩

/-! ## Discovery (`index_recipes`, lines 90–113) -/

/-- Python `pathlib.Path.suffix` on a base name: the final component's
extension starting at its last dot, empty when there is no dot, when the
name starts with its only dot, or when the name ends with the dot. -/
def fileSuffix (name : List Char) : List Char :=
  let r := name.reverse
  let w := r.takeWhile (fun c => c ≠ '.')
  match r.dropWhile (fun c => c ≠ '.') with
  | [] => []
  | _ :: restTail => if w = [] ∨ restTail = [] then [] else '.' :: w.reverse

/-- ASCII lowercasing of one character.  Python's `str.lower` also folds
non-ASCII letters, but no character outside the ASCII range folds to any
character of the fixed extension allow-list, so the comparison below is
unaffected. -/
def asciiLowerChar (c : Char) : Char :=
  if 65 ≤ c.toNat ∧ c.toNat ≤ 90 then Char.ofNat (c.toNat + 32) else c

/-- `filepath.suffix.lower()` (lines 95 and 102). -/
def suffixLower (name : String) : String :=
  ⟨(fileSuffix name.data).map asciiLowerChar⟩

/-- `pdf_ext` (line 90). -/
def pdf_ext : List String := [".pdf"]

/-- `html_ext` (line 91). -/
def html_ext : List String := [".html", ".htm"]

/-- `text_ext` (line 92). -/
def text_ext : List String := [".txt", ".md"]

/-- One directory entry produced by `recipes_path.rglob('*')`, together
with the environment facts the run consumes about it: whether it is a
regular file, what the format-specific extraction library yields for it
(`none` when the library raises or is missing), whether `shutil.copy2`
succeeds on it, and its `st_size`. -/
structure FsFile where
  name : String
  isFile : Bool
  extractResult : Option String
  copyOk : Bool
  size : Nat
deriving DecidableEq, Repr

/-- The filter of line 95: regular files whose lowercased suffix is on
the allow-list. -/
def isRecipeFile (f : FsFile) : Bool :=
  f.isFile && (pdf_ext ++ html_ext ++ text_ext).contains (suffixLower f.name)

/-- `recipe_files` (line 95), in traversal order. -/
def recipeFiles (entries : List FsFile) : List FsFile :=
  entries.filter isRecipeFile

/-! ## Extractor dispatch (lines 13–56 and 104–113)

The PDF and HTML parsing libraries are external collaborators (spec §6);
each is modelled as an oracle yielding either the extracted text or a
failure.  Every extractor catches its library's failure and degrades to
the empty string (lines 25–30, 42–47, 54–56). -/

/-- `extract_pdf_text` (lines 13–30): the joined page text the PDF
library produced, or `""` when the import or the parse raised. -/
def extract_pdf_text (lib : Option String) : String :=
  lib.getD ""

/-- `extract_html_text` (lines 32–47): the text the HTML parser produced
after removing script/style subtrees, or `""` on failure. -/
def extract_html_text (lib : Option String) : String :=
  lib.getD ""

/-- `extract_text_file` (lines 49–56): the file's text, or `""` when the
read raised. -/
def extract_text_file (lib : Option String) : String :=
  lib.getD ""

/-- The extraction dispatch of lines 104–113 (the `text` variable). -/
def extractFor (f : FsFile) : String :=
  let ext := suffixLower f.name
  if pdf_ext.contains ext then extract_pdf_text f.extractResult
  else if html_ext.contains ext then extract_html_text f.extractResult
  else extract_text_file f.extractResult

/-- The `file_type` assignment of lines 104–113. -/
def fileTypeFor (f : FsFile) : String :=
  let ext := suffixLower f.name
  if pdf_ext.contains ext then "pdf"
  else if html_ext.contains ext then "html"
  else "text"

/-! ## Record assembly (`index_recipes`, lines 99–142) -/

/-- One recipe record (the dictionary of lines 132–140). -/
structure Record where
  id : Nat
  filename : String
  file_path : String
  type : String
  content : String
  preview : String
  size : Nat
deriving DecidableEq, Repr

/-- The record built for discovery index `idx` and file `f`
(lines 132–140).  The `if not text` check of lines 115–117 rebinds an
empty extraction to `""`, the identity on strings, so `content` is the
dispatch result unchanged. -/
def mkRecord (idx : Nat) (f : FsFile) : Record :=
  { id := idx
    filename := f.name
    file_path := "recipes/" ++ safeFilename idx f.name
    type := fileTypeFor f
    content := extractFor f
    preview := create_preview (extractFor f) 200
    size := f.size }

/-- The per-file loop of lines 99–142 starting at discovery index `idx`:
returns the accumulated records and the successful copies as
(discovery index, destination name) pairs.  A copy failure hits the
`continue` of line 130: no record and no copy for that file, but the
index advances. -/
def buildAux : Nat → List FsFile → List Record × List (Nat × String)
  | _, [] => ([], [])
  | idx, f :: rest =>
    let built := buildAux (idx + 1) rest
    if f.copyOk then
      (mkRecord idx f :: built.1, (idx, safeFilename idx f.name) :: built.2)
    else built

/-! ## The run (`index_recipes`, lines 67–153, and `__main__`) -/

/-- The environment of one invocation: whether the root exists
(line 79's check), the `rglob` traversal, and whether the two unguarded
filesystem operations — `recipes_copy_dir.mkdir` on line 85 and the
index-file open/write on lines 146–147 — succeed.  Neither is inside a
`try`, so a failure of either propagates as an uncaught exception. -/
structure Env where
  rootExists : Bool
  entries : List FsFile
  mkdirOk : Bool
  writeOk : Bool
deriving DecidableEq, Repr

/-- The observable outcome of one `index_recipes` run: whether the
missing-root error was reported (line 80), whether the copy
subdirectory creation was reached (line 85), the successful copies, the
in-memory record list, whether the index file was written
(lines 144–147), and whether an uncaught exception terminated the
call. -/
structure RunTrace where
  errorReported : Bool
  mkdirCalled : Bool
  copies : List (Nat × String)
  records : List Record
  indexWritten : Bool
  uncaught : Bool
deriving DecidableEq, Repr

/-- `index_recipes` (lines 67–153).  A missing root reports an error and
returns before any side effect (lines 79–81); an `mkdir` failure raises
before any file is processed; a failure opening the index file raises
after the copies were already made; otherwise the index is written. -/
def index_recipes (env : Env) : RunTrace :=
  if !env.rootExists then
    { errorReported := true, mkdirCalled := false, copies := [],
      records := [], indexWritten := false, uncaught := false }
  else if !env.mkdirOk then
    { errorReported := false, mkdirCalled := true, copies := [],
      records := [], indexWritten := false, uncaught := true }
  else
    let built := buildAux 1 (recipeFiles env.entries)
    if !env.writeOk then
      { errorReported := false, mkdirCalled := true, copies := built.2,
        records := built.1, indexWritten := false, uncaught := true }
    else
      { errorReported := false, mkdirCalled := true, copies := built.2,
        records := built.1, indexWritten := true, uncaught := false }

/-- The `__main__` block (lines 155–178): exit status 1 when the required
argument is missing (line 164) or when `index_recipes` raised an
uncaught exception, and 0 otherwise — in particular 0 when the root was
missing, since that path merely prints and returns. -/
def mainExitCode (argc : Nat) (env : Env) : Nat :=
  if argc < 2 then 1
  else if (index_recipes env).uncaught then 1
  else 0

/-! ## Serialization (`json.dump` / `json.load`, lines 144–147)

The index is written with `json.dump(..., ensure_ascii=False, indent=2)`
and read back with a standard JSON parser.  The documents are modelled
by the `Json` tree below; string payloads are carried exactly as the
encoder writes them between the quotes, so the character-level escaping
done by `json.dump` and undone by `json.load` — the only place where
losslessness of the defined fields is at stake — is modelled and
verified explicitly.  Tokenization and the `indent=2` whitespace are
outside the strings and do not affect the recovered values. -/

/-- Lowercase hexadecimal digit character for a value below sixteen. -/
def hexDigitChar (d : Nat) : Char :=
  if d < 10 then Char.ofNat (48 + d) else Char.ofNat (87 + d)

/-- `json.dump`'s escaping of one character with `ensure_ascii=False`:
`"` and `\` get a backslash, the five short control escapes are used
where they exist, every other control character below U+0020 becomes
`\u00XX`, and everything else is written verbatim. -/
def escapeChar (c : Char) : List Char :=
  if c = '"' then ['\\', '"']
  else if c = '\\' then ['\\', '\\']
  else if c.toNat < 32 then
    if c = Char.ofNat 8 then ['\\', 'b']
    else if c = Char.ofNat 9 then ['\\', 't']
    else if c = Char.ofNat 10 then ['\\', 'n']
    else if c = Char.ofNat 12 then ['\\', 'f']
    else if c = Char.ofNat 13 then ['\\', 'r']
    else ['\\', 'u', '0', '0',
          hexDigitChar (c.toNat / 16), hexDigitChar (c.toNat % 16)]
  else [c]

/-- The escaped payload of a string as written between the quotes. -/
def escapeChars : List Char → List Char
  | [] => []
  | c :: rest => escapeChar c ++ escapeChars rest

/-- Value of a hexadecimal digit character, as accepted inside `\uXXXX`. -/
def hexVal (c : Char) : Option Nat :=
  let n := c.toNat
  if 48 ≤ n ∧ n ≤ 57 then some (n - 48)
  else if 97 ≤ n ∧ n ≤ 102 then some (n - 87)
  else if 65 ≤ n ∧ n ≤ 70 then some (n - 55)
  else none

/-- Decoding of one backslash escape: the characters following the
backslash determine the decoded character and how many input characters
the escape consumed; `none` is a parse error (invalid escape). -/
def unescEsc : List Char → Option (Char × Nat)
  | '"' :: _ => some ('"', 1)
  | '\\' :: _ => some ('\\', 1)
  | '/' :: _ => some ('/', 1)
  | 'b' :: _ => some (Char.ofNat 8, 1)
  | 't' :: _ => some (Char.ofNat 9, 1)
  | 'n' :: _ => some (Char.ofNat 10, 1)
  | 'f' :: _ => some (Char.ofNat 12, 1)
  | 'r' :: _ => some (Char.ofNat 13, 1)
  | 'u' :: a :: b :: x :: y :: _ => do
      let v1 ← hexVal a
      let v2 ← hexVal b
      let v3 ← hexVal x
      let v4 ← hexVal y
      some (Char.ofNat (((v1 * 16 + v2) * 16 + v3) * 16 + v4), 5)
  | _ => none

/-- A strict JSON parser's reading of a string payload (`json.load`'s
default `strict=True`): the standard backslash escapes and `\uXXXX` are
decoded, a raw control character or a stray quote or backslash is a
parse error. -/
def unescapeChars : List Char → Option (List Char)
  | [] => some []
  | c :: rest =>
    if c = '\\' then
      match unescEsc rest with
      | some (d, k) => Option.map (d :: ·) (unescapeChars (rest.drop k))
      | none => none
    else if c.toNat < 32 ∨ c = '"' then none
    else Option.map (c :: ·) (unescapeChars rest)
  termination_by l => l.length
  decreasing_by
    · simp only [List.length_cons]
      have := List.length_drop k rest
      omega
    · simp only [List.length_cons]
      omega

/-- JSON documents as writable by `json.dump` and readable by
`json.load`; object members keep the insertion order `json.dump`
writes, and string leaves hold their escaped payload. -/
inductive Json where
  | num (n : Nat)
  | str (payload : List Char)
  | arr (elems : List Json)
  | obj (members : List (String × Json))

/-- A string field's serialized form. -/
def encodeStr (s : String) : Json :=
  Json.str (escapeChars s.data)

/-- The serialization of one record as the object literal of
lines 132–140, in the dictionary's insertion order, which `json.dump`
preserves. -/
def encodeRecord (r : Record) : Json :=
  Json.obj
    [("id", Json.num r.id),
     ("filename", encodeStr r.filename),
     ("file_path", encodeStr r.file_path),
     ("type", encodeStr r.type),
     ("content", encodeStr r.content),
     ("preview", encodeStr r.preview),
     ("size", Json.num r.size)]

/-- Reading one record object back from the parsed index. -/
def decodeRecord : Json → Option Record
  | Json.obj
      [("id", Json.num i),
       ("filename", Json.str f),
       ("file_path", Json.str p),
       ("type", Json.str t),
       ("content", Json.str c),
       ("preview", Json.str pv),
       ("size", Json.num s)] => do
      let f' ← unescapeChars f
      let p' ← unescapeChars p
      let t' ← unescapeChars t
      let c' ← unescapeChars c
      let pv' ← unescapeChars pv
      some { id := i, filename := ⟨f'⟩, file_path := ⟨p'⟩, type := ⟨t'⟩,
             content := ⟨c'⟩, preview := ⟨pv'⟩, size := s }
  | _ => none

/-- `json.dump(recipes, ...)` (line 147): the collection serialized as
an ordered array. -/
def encodeIndex (rs : List Record) : Json :=
  Json.arr (rs.map encodeRecord)

/-- Reading back each element of the index array in order. -/
def decodeRecords : List Json → Option (List Record)
  | [] => some []
  | j :: js => do
      let r ← decodeRecord j
      let rest ← decodeRecords js
      some (r :: rest)

/-- Reading the whole index file back. -/
def decodeIndex : Json → Option (List Record)
  | Json.arr js => decodeRecords js
  | _ => none

/-- Modelled from the spec: the closed `type` enumeration of §3, "one of
`pdf`, `html`, `text` — derived from file extension", with `.pdf` → `pdf`,
`.html`/`.htm` → `html`, `.txt`/`.md` → `text`; used to compare the
source's dispatch against the spec's mapping. -/
def specTypeOf (ext : String) : Option String :=
  if ext = ".pdf" then some "pdf"
  else if ext = ".html" ∨ ext = ".htm" then some "html"
  else if ext = ".txt" ∨ ext = ".md" then some "text"
  else none

/-! ## Example files and environments

Concrete fixtures used to exercise the run on closed instances. -/

/-- A plain text file that extracts and copies fine. -/
def fileOkA : FsFile :=
  { name := "a.txt", isFile := true, extractResult := some "alpha beta",
    copyOk := true, size := 10 }

/-- An uppercase-extension PDF whose extraction fails but whose copy
succeeds. -/
def fileOkB : FsFile :=
  { name := "b recipe.PDF", isFile := true, extractResult := none,
    copyOk := true, size := 20 }

/-- A Markdown file whose copy fails. -/
def fileCopyFail : FsFile :=
  { name := "c.md", isFile := true, extractResult := some "gamma",
    copyOk := false, size := 30 }

/-- A directory entry that is not a regular file. -/
def fileDir : FsFile :=
  { name := "subdir", isFile := false, extractResult := none,
    copyOk := true, size := 0 }

/-- A regular file with an unrecognized extension. -/
def fileOther : FsFile :=
  { name := "notes.docx", isFile := true, extractResult := none,
    copyOk := true, size := 1 }

/-- A clean run over two recognized files. -/
def envTwoOk : Env :=
  { rootExists := true, entries := [fileOkA, fileOkB],
    mkdirOk := true, writeOk := true }

/-- A run in which the first discovered file's copy fails. -/
def envCopyFail : Env :=
  { rootExists := true, entries := [fileCopyFail, fileOkA],
    mkdirOk := true, writeOk := true }

/-- A run in which creating the copy subdirectory fails. -/
def envMkdirFail : Env :=
  { rootExists := true, entries := [fileOkA],
    mkdirOk := false, writeOk := true }

/-- A run over a mix of directories, recognized and unrecognized files,
with one copy failure and one extraction failure. -/
def envMixed : Env :=
  { rootExists := true, entries := [fileDir, fileOkA, fileOther, fileCopyFail, fileOkB],
    mkdirOk := true, writeOk := true }

/-- A run whose root directory does not exist. -/
def envRootMissing : Env :=
  { rootExists := false, entries := [fileOkA],
    mkdirOk := true, writeOk := true }

/-! ## Lemmas about whitespace cleaning -/

theorem pyIsSpace_space : pyIsSpace ' ' = true := by decide

theorem noBadWs_cons (c : Char) (l : List Char) :
    noBadWs (c :: l) = (pairOk c l.head? && noBadWs l) := rfl

theorem head?_collapseAux_true (l : List Char) (c : Char)
    (h : (collapseAux l true).head? = some c) : pyIsSpace c = false := by
  induction l with
  | nil => simp [collapseAux] at h
  | cons d t ih =>
    by_cases hd : pyIsSpace d
    · simp [collapseAux, hd] at h
      exact ih h
    · simp [collapseAux, hd] at h
      rw [← h]
      simpa using hd

theorem noBadWs_collapseAux (l : List Char) (b : Bool) :
    noBadWs (collapseAux l b) = true := by
  induction l generalizing b with
  | nil => simp [collapseAux, noBadWs]
  | cons c t ih =>
    by_cases hc : pyIsSpace c
    · cases b with
      | true => simpa [collapseAux, hc] using ih true
      | false =>
        simp only [collapseAux, hc, if_true, if_false, Bool.false_eq_true]
        rw [noBadWs_cons, Bool.and_eq_true]
        refine ⟨?_, ih true⟩
        cases hh : (collapseAux t true).head? with
        | none => simp [pairOk]
        | some d =>
          have := head?_collapseAux_true t d hh
          simp [pairOk, this]
    · simp only [collapseAux, hc, if_false, Bool.false_eq_true]
      rw [noBadWs_cons, Bool.and_eq_true]
      refine ⟨?_, ih false⟩
      have hcs : (c == ' ') = false := by
        cases hq : c == ' ' with
        | false => rfl
        | true =>
          have : c = ' ' := by simpa using hq
          rw [this] at hc
          simp [pyIsSpace_space] at hc
      cases hh : (collapseAux t false).head? with
      | none => simp [pairOk, hc]
      | some d => simp [pairOk, hc, hcs]

theorem noBadWs_append_right {a b : List Char}
    (h : noBadWs (a ++ b) = true) : noBadWs b = true := by
  induction a with
  | nil => simpa using h
  | cons c t ih =>
    rw [List.cons_append, noBadWs_cons, Bool.and_eq_true] at h
    exact ih h.2

theorem pairOk_of_pairOk_head {c : Char} {a b : List Char}
    (h : pairOk c (a ++ b).head? = true) : pairOk c a.head? = true := by
  cases a with
  | nil =>
    cases hb : b.head? with
    | none => simpa [pairOk, hb] using h
    | some d =>
      simp only [List.nil_append, hb] at h
      simp only [pairOk, Bool.and_eq_true] at h ⊢
      exact h.1
  | cons d t => simpa using h

theorem noBadWs_append_left {a b : List Char}
    (h : noBadWs (a ++ b) = true) : noBadWs a = true := by
  induction a with
  | nil => simp [noBadWs]
  | cons c t ih =>
    rw [List.cons_append, noBadWs_cons, Bool.and_eq_true] at h
    rw [noBadWs_cons, Bool.and_eq_true]
    refine ⟨?_, ih h.2⟩
    exact pairOk_of_pairOk_head (a := t) (b := b) h.1

theorem head?_dropWhile_pyIsSpace (l : List Char) (c : Char)
    (h : (l.dropWhile pyIsSpace).head? = some c) : pyIsSpace c = false := by
  induction l with
  | nil => simp [List.dropWhile] at h
  | cons d t ih =>
    by_cases hd : pyIsSpace d
    · rw [List.dropWhile_cons_of_pos hd] at h
      exact ih h
    · rw [List.dropWhile_cons_of_neg hd] at h
      simp at h
      rw [← h]
      simpa using hd

theorem head?_append_of_some {xs ys : List Char} {c : Char}
    (h : xs.head? = some c) : (xs ++ ys).head? = some c := by
  cases xs with
  | nil => simp at h
  | cons d t => simpa using h

/-- Assembling `isCleanText` from its three components. -/
theorem isCleanText_intro {l : List Char} (hnb : noBadWs l = true)
    (hh : ∀ c, l.head? = some c → pyIsSpace c = false)
    (hg : ∀ c, l.getLast? = some c → pyIsSpace c = false) :
    isCleanText l = true := by
  unfold isCleanText
  rw [hnb]
  cases h1 : l.head? with
  | none =>
    cases h2 : l.getLast? with
    | none => rfl
    | some c => simp [endOk, hg c h2]
  | some c =>
    cases h2 : l.getLast? with
    | none => simp [endOk, hh c h1]
    | some d => simp [endOk, hh c h1, hg d h2]

/-- Stripping a list whose whitespace is already well-formed yields clean
text. -/
theorem isCleanText_stripWs {w : List Char} (hnb : noBadWs w = true) :
    isCleanText (stripWs w) = true := by
  have hnby : noBadWs (w.dropWhile pyIsSpace) = true := by
    refine noBadWs_append_right (a := w.takeWhile pyIsSpace) ?_
    rw [List.takeWhile_append_dropWhile]
    exact hnb
  have hyz : w.dropWhile pyIsSpace =
      ((w.dropWhile pyIsSpace).reverse.dropWhile pyIsSpace).reverse ++
        ((w.dropWhile pyIsSpace).reverse.takeWhile pyIsSpace).reverse := by
    have h3 := congrArg List.reverse
      (List.takeWhile_append_dropWhile pyIsSpace (w.dropWhile pyIsSpace).reverse)
    rw [List.reverse_append, List.reverse_reverse] at h3
    exact h3.symm
  have hnbr :
      noBadWs ((w.dropWhile pyIsSpace).reverse.dropWhile pyIsSpace).reverse = true := by
    refine noBadWs_append_left
      (b := ((w.dropWhile pyIsSpace).reverse.takeWhile pyIsSpace).reverse) ?_
    rw [← hyz]
    exact hnby
  refine isCleanText_intro hnbr ?_ ?_
  · intro c hc
    have hcy : (w.dropWhile pyIsSpace).head? = some c := by
      rw [hyz]
      exact head?_append_of_some hc
    exact head?_dropWhile_pyIsSpace w c hcy
  · intro c hc
    have hc' :
        ((w.dropWhile pyIsSpace).reverse.dropWhile pyIsSpace).reverse.getLast? =
          some c := hc
    rw [List.getLast?_reverse] at hc'
    exact head?_dropWhile_pyIsSpace (w.dropWhile pyIsSpace).reverse c hc'

/-- The cleaned text of line 62 is whitespace-collapsed and trimmed. -/
theorem isCleanText_cleanChars (l : List Char) :
    isCleanText (cleanChars l) = true :=
  isCleanText_stripWs (noBadWs_collapseAux l false)

/-- Collapsing whitespace runs does not change the non-whitespace
content. -/
theorem filter_collapseAux (l : List Char) (b : Bool) :
    (collapseAux l b).filter (fun c => !pyIsSpace c) =
      l.filter (fun c => !pyIsSpace c) := by
  induction l generalizing b with
  | nil => rfl
  | cons c t ih =>
    by_cases hc : pyIsSpace c
    · cases b with
      | true => simp [collapseAux, hc, List.filter_cons, ih]
      | false => simp [collapseAux, hc, List.filter_cons, pyIsSpace_space, ih]
    · simp [collapseAux, hc, List.filter_cons, ih]

theorem filter_dropWhile_pyIsSpace (l : List Char) :
    (l.dropWhile pyIsSpace).filter (fun c => !pyIsSpace c) =
      l.filter (fun c => !pyIsSpace c) := by
  induction l with
  | nil => rfl
  | cons c t ih =>
    by_cases hc : pyIsSpace c
    · rw [List.dropWhile_cons_of_pos hc, ih, List.filter_cons]
      simp [hc]
    · rw [List.dropWhile_cons_of_neg hc]

/-- Cleaning preserves the non-whitespace characters in order: nothing
but whitespace is dropped or rewritten. -/
theorem filter_cleanChars (l : List Char) :
    (cleanChars l).filter (fun c => !pyIsSpace c) =
      l.filter (fun c => !pyIsSpace c) := by
  have h1 : cleanChars l =
      (((collapseWs l).dropWhile pyIsSpace).reverse.dropWhile pyIsSpace).reverse := rfl
  rw [h1, List.filter_reverse, filter_dropWhile_pyIsSpace, List.filter_reverse,
    List.reverse_reverse, filter_dropWhile_pyIsSpace]
  exact filter_collapseAux l false

/-! ## Cleaning is the identity on already-clean text -/

theorem collapseAux_eq_self {l : List Char} (h : noBadWs l = true) :
    collapseAux l false = l := by
  induction l with
  | nil => rfl
  | cons c t ih =>
    rw [noBadWs_cons, Bool.and_eq_true] at h
    by_cases hc : pyIsSpace c
    · have hcs : c = ' ' := by
        have h1 := h.1
        cases t with
        | nil =>
          simp only [pairOk, List.head?_nil, hc] at h1
          simpa using h1
        | cons d t' =>
          simp only [pairOk, List.head?_cons, hc, Bool.and_eq_true] at h1
          have := h1.1
          simpa using this
      subst hcs
      have hstep : collapseAux (' ' :: t) false = ' ' :: collapseAux t true := by
        simp [collapseAux, pyIsSpace_space]
      rw [hstep]
      cases t with
      | nil => rfl
      | cons d t' =>
        have hd : pyIsSpace d = false := by
          have h1 := h.1
          simp only [pairOk, List.head?_cons, pyIsSpace_space, Bool.and_eq_true] at h1
          have h2 := h1.2
          cases hq : pyIsSpace d with
          | false => rfl
          | true => simp [hq] at h2
        have ht := ih h.2
        rw [show collapseAux (d :: t') false = d :: collapseAux t' false by
              simp [collapseAux, hd]] at ht
        have ht' : collapseAux t' false = t' := by
          exact List.cons.inj ht |>.2
        rw [show collapseAux (d :: t') true = d :: collapseAux t' false by
              simp [collapseAux, hd]]
        rw [ht']
    · simp only [collapseAux, hc, if_false, Bool.false_eq_true]
      rw [ih h.2]

theorem dropWhile_pyIsSpace_eq_self {l : List Char}
    (h : ∀ c, l.head? = some c → pyIsSpace c = false) :
    l.dropWhile pyIsSpace = l := by
  cases l with
  | nil => rfl
  | cons c t =>
    have := h c rfl
    rw [List.dropWhile_cons_of_neg (by simp [this])]

theorem stripWs_eq_self {l : List Char}
    (hh : ∀ c, l.head? = some c → pyIsSpace c = false)
    (hg : ∀ c, l.getLast? = some c → pyIsSpace c = false) :
    stripWs l = l := by
  unfold stripWs
  rw [dropWhile_pyIsSpace_eq_self hh]
  rw [dropWhile_pyIsSpace_eq_self (by
    intro c hc
    rw [List.head?_reverse] at hc
    exact hg c hc)]
  exact List.reverse_reverse l

/-- Cleaning is the identity on already collapsed-and-trimmed text. -/
theorem cleanChars_eq_self {l : List Char} (h : isCleanText l = true) :
    cleanChars l = l := by
  unfold isCleanText at h
  rw [Bool.and_eq_true, Bool.and_eq_true] at h
  obtain ⟨⟨hnb, hh⟩, hg⟩ := h
  unfold cleanChars collapseWs
  rw [collapseAux_eq_self hnb]
  refine stripWs_eq_self ?_ ?_
  · intro c hc
    rw [hc] at hh
    simpa [endOk] using hh
  · intro c hc
    rw [hc] at hg
    simpa [endOk] using hg

/-! ## Lemmas about `rsplit` and the preview -/

theorem dropWhile_space_split {l : List Char} (h : ' ' ∈ l) :
    ∃ a b, l = a ++ ' ' :: b ∧
      l.dropWhile (fun c => c ≠ ' ') = ' ' :: b ∧ ' ' ∉ a := by
  induction l with
  | nil => simp at h
  | cons c t ih =>
    by_cases hc : c = ' '
    · subst hc
      refine ⟨[], t, rfl, ?_, by simp⟩
      rw [List.dropWhile_cons_of_neg (by simp)]
    · have ht : ' ' ∈ t := by
        rcases List.mem_cons.mp h with h1 | h1
        · exact absurd h1.symm hc
        · exact h1
      obtain ⟨a, b, h1, h2, h3⟩ := ih ht
      refine ⟨c :: a, b, by rw [List.cons_append, h1], ?_, ?_⟩
      · rw [List.dropWhile_cons_of_pos (by simpa using hc)]
        exact h2
      · intro hmem
        rcases List.mem_cons.mp hmem with h4 | h4
        · exact hc h4.symm
        · exact h3 h4

theorem rsplitBody_split {s : List Char} (h : ' ' ∈ s) :
    ∃ w, s = rsplitBody s ++ ' ' :: w ∧ ' ' ∉ w := by
  have hr : ' ' ∈ s.reverse := List.mem_reverse.mpr h
  obtain ⟨a, b, h1, h2, h3⟩ := dropWhile_space_split hr
  have hbody : rsplitBody s = b.reverse := by
    unfold rsplitBody
    rw [if_pos h, h2]
    rfl
  refine ⟨a.reverse, ?_, by simpa using h3⟩
  rw [hbody]
  have h4 := congrArg List.reverse h1
  rw [List.reverse_reverse, List.reverse_append, List.reverse_cons,
    List.append_assoc, List.singleton_append] at h4
  exact h4

theorem rsplitBody_of_no_space {s : List Char} (h : ' ' ∉ s) :
    rsplitBody s = s := by
  unfold rsplitBody
  rw [if_neg h]

theorem rsplitBody_length_le (s : List Char) :
    (rsplitBody s).length ≤ s.length := by
  by_cases h : ' ' ∈ s
  · obtain ⟨w, hw, _⟩ := rsplitBody_split h
    have := congrArg List.length hw
    simp only [List.length_append, List.length_cons] at this
    omega
  · rw [rsplitBody_of_no_space h]

theorem previewChars_of_le {t : List Char} {maxLength : Nat}
    (h : (cleanChars t).length ≤ maxLength) :
    previewChars t maxLength = cleanChars t := by
  unfold previewChars
  rw [if_pos h]

theorem previewChars_of_gt {t : List Char} {maxLength : Nat}
    (h : maxLength < (cleanChars t).length) :
    previewChars t maxLength =
      rsplitBody ((cleanChars t).take maxLength) ++ ['.', '.', '.'] := by
  unfold previewChars
  rw [if_neg (by omega)]

/-! ## Lemmas about the per-file loop -/

theorem buildAux_records_mem (files : List FsFile) (n : Nat) (r : Record) :
    r ∈ (buildAux n files).1 ↔
      ∃ k f, files[k]? = some f ∧ f.copyOk = true ∧ r = mkRecord (n + k) f := by
  induction files generalizing n with
  | nil => simp [buildAux]
  | cons f t ih =>
    cases hcopy : f.copyOk with
    | true =>
      have hunfold : (buildAux n (f :: t)).1 = mkRecord n f :: (buildAux (n + 1) t).1 := by
        simp [buildAux, hcopy]
      rw [hunfold]
      constructor
      · intro hr
        rcases List.mem_cons.mp hr with h1 | h1
        · exact ⟨0, f, by simp, hcopy, by simpa using h1⟩
        · obtain ⟨k, f', h2, h3, h4⟩ := (ih (n + 1)).mp h1
          refine ⟨k + 1, f', by simpa using h2, h3, ?_⟩
          rw [h4]
          have harith : n + 1 + k = n + (k + 1) := by omega
          rw [harith]
      · rintro ⟨k, f', h2, h3, h4⟩
        cases k with
        | zero =>
          simp only [List.getElem?_cons_zero, Option.some.injEq] at h2
          subst h2
          rw [List.mem_cons]
          left
          rw [h4]
          simp
        | succ k' =>
          right
          refine (ih (n + 1)).mpr ⟨k', f', by simpa using h2, h3, ?_⟩
          rw [h4]
          have harith : n + (k' + 1) = n + 1 + k' := by omega
          rw [harith]
    | false =>
      have hunfold : (buildAux n (f :: t)).1 = (buildAux (n + 1) t).1 := by
        simp [buildAux, hcopy]
      rw [hunfold, ih (n + 1)]
      constructor
      · rintro ⟨k, f', h2, h3, h4⟩
        refine ⟨k + 1, f', by simpa using h2, h3, ?_⟩
        rw [h4]
        have harith : n + 1 + k = n + (k + 1) := by omega
        rw [harith]
      · rintro ⟨k, f', h2, h3, h4⟩
        cases k with
        | zero =>
          simp only [List.getElem?_cons_zero, Option.some.injEq] at h2
          subst h2
          rw [hcopy] at h3
          exact absurd h3 (by simp)
        | succ k' =>
          refine ⟨k', f', by simpa using h2, h3, ?_⟩
          rw [h4]
          have harith : n + (k' + 1) = n + 1 + k' := by omega
          rw [harith]

theorem buildAux_copies_mem (files : List FsFile) (n : Nat) (p : Nat × String) :
    p ∈ (buildAux n files).2 ↔
      ∃ k f, files[k]? = some f ∧ f.copyOk = true ∧
        p = (n + k, safeFilename (n + k) f.name) := by
  induction files generalizing n with
  | nil => simp [buildAux]
  | cons f t ih =>
    cases hcopy : f.copyOk with
    | true =>
      have hunfold : (buildAux n (f :: t)).2 =
          (n, safeFilename n f.name) :: (buildAux (n + 1) t).2 := by
        simp [buildAux, hcopy]
      rw [hunfold]
      constructor
      · intro hr
        rcases List.mem_cons.mp hr with h1 | h1
        · exact ⟨0, f, by simp, hcopy, by simpa using h1⟩
        · obtain ⟨k, f', h2, h3, h4⟩ := (ih (n + 1)).mp h1
          refine ⟨k + 1, f', by simpa using h2, h3, ?_⟩
          rw [h4]
          have harith : n + 1 + k = n + (k + 1) := by omega
          rw [harith]
      · rintro ⟨k, f', h2, h3, h4⟩
        cases k with
        | zero =>
          simp only [List.getElem?_cons_zero, Option.some.injEq] at h2
          subst h2
          rw [List.mem_cons]
          left
          rw [h4]
          simp
        | succ k' =>
          right
          refine (ih (n + 1)).mpr ⟨k', f', by simpa using h2, h3, ?_⟩
          rw [h4]
          have harith : n + (k' + 1) = n + 1 + k' := by omega
          rw [harith]
    | false =>
      have hunfold : (buildAux n (f :: t)).2 = (buildAux (n + 1) t).2 := by
        simp [buildAux, hcopy]
      rw [hunfold, ih (n + 1)]
      constructor
      · rintro ⟨k, f', h2, h3, h4⟩
        refine ⟨k + 1, f', by simpa using h2, h3, ?_⟩
        rw [h4]
        have harith : n + 1 + k = n + (k + 1) := by omega
        rw [harith]
      · rintro ⟨k, f', h2, h3, h4⟩
        cases k with
        | zero =>
          simp only [List.getElem?_cons_zero, Option.some.injEq] at h2
          subst h2
          rw [hcopy] at h3
          exact absurd h3 (by simp)
        | succ k' =>
          refine ⟨k', f', by simpa using h2, h3, ?_⟩
          rw [h4]
          have harith : n + (k' + 1) = n + 1 + k' := by omega
          rw [harith]

theorem buildAux_length (files : List FsFile) (n : Nat) :
    (buildAux n files).1.length = files.countP (fun f => f.copyOk) := by
  induction files generalizing n with
  | nil => simp [buildAux]
  | cons f t ih =>
    cases hcopy : f.copyOk with
    | true => simp [buildAux, hcopy, List.countP_cons, ih (n + 1)]
    | false => simp [buildAux, hcopy, List.countP_cons, ih (n + 1)]

theorem buildAux_id_ge (files : List FsFile) (n : Nat) :
    ∀ r ∈ (buildAux n files).1, n ≤ r.id := by
  intro r hr
  obtain ⟨k, f, _, _, h4⟩ := (buildAux_records_mem files n r).mp hr
  rw [h4]
  exact Nat.le_add_right n k

theorem buildAux_ids_sorted (files : List FsFile) (n : Nat) :
    ((buildAux n files).1.map Record.id).Pairwise (· < ·) := by
  induction files generalizing n with
  | nil => simp [buildAux]
  | cons f t ih =>
    cases hcopy : f.copyOk with
    | true =>
      have hunfold : (buildAux n (f :: t)).1 = mkRecord n f :: (buildAux (n + 1) t).1 := by
        simp [buildAux, hcopy]
      rw [hunfold, List.map_cons]
      refine List.Pairwise.cons ?_ (ih (n + 1))
      intro b hb
      obtain ⟨r, hr, hrb⟩ := List.mem_map.mp hb
      have := buildAux_id_ge t (n + 1) r hr
      have hid : (mkRecord n f).id = n := rfl
      rw [hid, ← hrb]
      omega
    | false =>
      have hunfold : (buildAux n (f :: t)).1 = (buildAux (n + 1) t).1 := by
        simp [buildAux, hcopy]
      rw [hunfold]
      exact ih (n + 1)

theorem buildAux_ids_of_all_ok (files : List FsFile) (n : Nat)
    (h : ∀ f ∈ files, f.copyOk = true) :
    (buildAux n files).1.map Record.id = List.range' n files.length := by
  induction files generalizing n with
  | nil => simp [buildAux]
  | cons f t ih =>
    have hcopy : f.copyOk = true := h f (List.mem_cons_self f t)
    have hunfold : (buildAux n (f :: t)).1 = mkRecord n f :: (buildAux (n + 1) t).1 := by
      simp [buildAux, hcopy]
    rw [hunfold, List.map_cons]
    have htail : ∀ g ∈ t, g.copyOk = true := fun g hg => h g (List.mem_cons_of_mem f hg)
    rw [ih (n + 1) htail]
    rfl

theorem buildAux_copies_fst_ge (files : List FsFile) (n : Nat) :
    ∀ p ∈ (buildAux n files).2, n ≤ p.1 := by
  intro p hp
  obtain ⟨k, f, _, _, h4⟩ := (buildAux_copies_mem files n p).mp hp
  rw [h4]
  exact Nat.le_add_right n k

theorem buildAux_copies_fst_sorted (files : List FsFile) (n : Nat) :
    ((buildAux n files).2).Pairwise (fun p q => p.1 < q.1) := by
  induction files generalizing n with
  | nil => simp [buildAux]
  | cons f t ih =>
    cases hcopy : f.copyOk with
    | true =>
      have hunfold : (buildAux n (f :: t)).2 =
          (n, safeFilename n f.name) :: (buildAux (n + 1) t).2 := by
        simp [buildAux, hcopy]
      rw [hunfold]
      refine List.Pairwise.cons ?_ (ih (n + 1))
      intro q hq
      have := buildAux_copies_fst_ge t (n + 1) q hq
      simp only []
      omega
    | false =>
      have hunfold : (buildAux n (f :: t)).2 = (buildAux (n + 1) t).2 := by
        simp [buildAux, hcopy]
      rw [hunfold]
      exact ih (n + 1)

/-! ## Lemmas about the run wrapper -/

theorem index_recipes_records_of_ok {env : Env} (hr : env.rootExists = true)
    (hm : env.mkdirOk = true) :
    (index_recipes env).records = (buildAux 1 (recipeFiles env.entries)).1 := by
  cases hw : env.writeOk <;> simp [index_recipes, hr, hm, hw]

theorem index_recipes_copies_of_ok {env : Env} (hr : env.rootExists = true)
    (hm : env.mkdirOk = true) :
    (index_recipes env).copies = (buildAux 1 (recipeFiles env.entries)).2 := by
  cases hw : env.writeOk <;> simp [index_recipes, hr, hm, hw]

theorem index_recipes_written {env : Env}
    (h : (index_recipes env).indexWritten = true) :
    env.rootExists = true ∧ env.mkdirOk = true ∧ env.writeOk = true := by
  cases hr : env.rootExists <;> cases hm : env.mkdirOk <;> cases hw : env.writeOk <;>
    simp [index_recipes, hr, hm, hw] at h ⊢

theorem index_recipes_records_empty_cases {env : Env} :
    (index_recipes env).records = (buildAux 1 (recipeFiles env.entries)).1 ∨
      (index_recipes env).records = [] := by
  cases hr : env.rootExists with
  | false => right; simp [index_recipes, hr]
  | true =>
    cases hm : env.mkdirOk with
    | false => right; simp [index_recipes, hr, hm]
    | true => left; exact index_recipes_records_of_ok hr hm

theorem index_recipes_copies_empty_cases {env : Env} :
    (index_recipes env).copies = (buildAux 1 (recipeFiles env.entries)).2 ∨
      (index_recipes env).copies = [] := by
  cases hr : env.rootExists with
  | false => right; simp [index_recipes, hr]
  | true =>
    cases hm : env.mkdirOk with
    | false => right; simp [index_recipes, hr, hm]
    | true => left; exact index_recipes_copies_of_ok hr hm

/-! ## Lemmas about the padded sequence numbers and safe filenames -/

theorem toNat_digitChar {d : Nat} (h : d < 10) :
    (digitChar d).toNat = 48 + d := by
  interval_cases d <;> decide

theorem mem_natDigitsAux_digit :
    ∀ (fuel n : Nat) (c : Char), c ∈ natDigitsAux fuel n →
      48 ≤ c.toNat ∧ c.toNat ≤ 57 := by
  intro fuel
  induction fuel with
  | zero =>
    intro n c hc
    have hcd : c = digitChar (n % 10) := by simpa [natDigitsAux] using hc
    rw [hcd, toNat_digitChar (Nat.mod_lt n (by omega))]
    have := Nat.mod_lt n (show 0 < 10 by omega)
    omega
  | succ fuel ih =>
    intro n c hc
    simp only [natDigitsAux] at hc
    split at hc
    · next h =>
      have hcd : c = digitChar n := by simpa using hc
      rw [hcd, toNat_digitChar h]
      omega
    · next h =>
      rcases List.mem_append.mp hc with h1 | h1
      · exact ih (n / 10) c h1
      · have hcd : c = digitChar (n % 10) := by simpa using h1
        rw [hcd, toNat_digitChar (Nat.mod_lt n (by omega))]
        have := Nat.mod_lt n (show 0 < 10 by omega)
        omega

theorem mem_natDigits_digit (n : Nat) (c : Char) (h : c ∈ natDigits n) :
    48 ≤ c.toNat ∧ c.toNat ≤ 57 :=
  mem_natDigitsAux_digit n n c h

theorem fromDigits_natDigitsAux :
    ∀ (fuel n : Nat), n ≤ fuel → fromDigits (natDigitsAux fuel n) = n := by
  intro fuel
  induction fuel with
  | zero =>
    intro n hn
    have hn0 : n = 0 := by omega
    subst hn0
    show List.foldl _ 0 [digitChar (0 % 10)] = 0
    simp [List.foldl, toNat_digitChar (show 0 % 10 < 10 by omega)]
  | succ fuel ih =>
    intro n hn
    simp only [natDigitsAux]
    split
    · next h =>
      show List.foldl _ 0 [digitChar n] = n
      simp [List.foldl, toNat_digitChar h]
    · next h =>
      show List.foldl _ 0 (natDigitsAux fuel (n / 10) ++ [digitChar (n % 10)]) = n
      rw [List.foldl_append]
      have hdiv : n / 10 ≤ fuel := by
        have := Nat.div_lt_self (show 0 < n by omega) (show 1 < 10 by omega)
        omega
      have hrec : List.foldl (fun a c => a * 10 + (c.toNat - 48)) 0
          (natDigitsAux fuel (n / 10)) = n / 10 := ih (n / 10) hdiv
      rw [hrec]
      simp only [List.foldl]
      rw [toNat_digitChar (Nat.mod_lt n (by omega))]
      omega

theorem fromDigits_natDigits (n : Nat) : fromDigits (natDigits n) = n :=
  fromDigits_natDigitsAux n n (Nat.le_refl n)

theorem foldl_digits_replicate_zero :
    ∀ (k : Nat) (l : List Char),
      (List.replicate k '0' ++ l).foldl (fun a c => a * 10 + (c.toNat - 48)) 0 =
        l.foldl (fun a c => a * 10 + (c.toNat - 48)) 0 := by
  intro k
  induction k with
  | zero => intro l; rfl
  | succ k ih =>
    intro l
    rw [List.replicate_succ, List.cons_append]
    show (List.replicate k '0' ++ l).foldl _ (0 * 10 + ('0'.toNat - 48)) = _
    have : (0 * 10 + ('0'.toNat - 48)) = 0 := by decide
    rw [this]
    exact ih l

theorem fromDigits_pad3 (n : Nat) : fromDigits (pad3 n) = n := by
  unfold pad3 fromDigits
  rw [foldl_digits_replicate_zero]
  exact fromDigits_natDigits n

theorem pad3_inj {a b : Nat} (h : pad3 a = pad3 b) : a = b := by
  have ha := fromDigits_pad3 a
  have hb := fromDigits_pad3 b
  rw [h] at ha
  omega

theorem mem_pad3_digit {n : Nat} {c : Char} (h : c ∈ pad3 n) :
    48 ≤ c.toNat ∧ c.toNat ≤ 57 := by
  unfold pad3 at h
  rcases List.mem_append.mp h with h1 | h1
  · have : c = '0' := List.eq_of_mem_replicate h1
    rw [this]
    decide
  · exact mem_natDigits_digit n c h1

theorem underscore_not_mem_pad3 (n : Nat) : '_' ∉ pad3 n := by
  intro h
  have := mem_pad3_digit h
  revert this
  decide

theorem space_not_mem_pad3 (n : Nat) : ' ' ∉ pad3 n := by
  intro h
  have := mem_pad3_digit h
  revert this
  decide

theorem map_eq_self_of {α : Type} (f : α → α) :
    ∀ l : List α, (∀ a ∈ l, f a = a) → l.map f = l := by
  intro l
  induction l with
  | nil => intro _; rfl
  | cons a t ih =>
    intro h
    rw [List.map_cons, h a (List.mem_cons_self a t),
      ih (fun b hb => h b (List.mem_cons_of_mem a hb))]

/-- The safe name is the padded sequence number, an underscore, and the
original name with spaces replaced by underscores. -/
theorem safeChars_formula (idx : Nat) (name : List Char) :
    safeChars idx name = pad3 idx ++ '_' :: name.map spaceToUnderscore := by
  unfold safeChars
  rw [List.map_append, List.map_cons]
  have h1 : (pad3 idx).map spaceToUnderscore = pad3 idx := by
    refine map_eq_self_of spaceToUnderscore (pad3 idx) ?_
    intro c hc
    unfold spaceToUnderscore
    rw [if_neg]
    intro hceq
    rw [hceq] at hc
    exact space_not_mem_pad3 idx hc
  have h2 : spaceToUnderscore '_' = '_' := by decide
  rw [h1, h2]

theorem append_cons_inj {α : Type} {c : α} :
    ∀ {a1 a2 b1 b2 : List α}, a1 ++ c :: b1 = a2 ++ c :: b2 →
      c ∉ a1 → c ∉ a2 → a1 = a2 ∧ b1 = b2 := by
  intro a1
  induction a1 with
  | nil =>
    intro a2 b1 b2 heq h1 h2
    cases a2 with
    | nil => simpa using heq
    | cons x t =>
      simp only [List.nil_append, List.cons_append, List.cons.injEq] at heq
      exact absurd (heq.1 ▸ List.mem_cons_self x t) (heq.1 ▸ h2)
  | cons x t ih =>
    intro a2 b1 b2 heq h1 h2
    cases a2 with
    | nil =>
      simp only [List.cons_append, List.nil_append, List.cons.injEq] at heq
      exact absurd (List.mem_cons_self x t) (heq.1 ▸ h1)
    | cons y s =>
      simp only [List.cons_append, List.cons.injEq] at heq
      have hx : x = y := heq.1
      have hrest := ih heq.2 (fun hm => h1 (List.mem_cons_of_mem x hm))
        (fun hm => h2 (List.mem_cons_of_mem y hm))
      exact ⟨by rw [hx, hrest.1], hrest.2⟩

/-- Distinct sequence numbers produce distinct safe filenames, whatever
the two original names are. -/
theorem safeChars_inj {i j : Nat} (hne : i ≠ j) (n m : List Char) :
    safeChars i n ≠ safeChars j m := by
  intro heq
  rw [safeChars_formula, safeChars_formula] at heq
  have := append_cons_inj heq (underscore_not_mem_pad3 i) (underscore_not_mem_pad3 j)
  exact hne (pad3_inj this.1)

theorem safeFilename_inj {i j : Nat} (hne : i ≠ j) (n m : String) :
    safeFilename i n ≠ safeFilename j m := by
  intro heq
  have : safeChars i n.data = safeChars j m.data := congrArg String.data heq
  exact safeChars_inj hne n.data m.data this

/-! ## Lemmas about JSON string escaping -/

theorem hexVal_hexDigitChar {d : Nat} (h : d < 16) :
    hexVal (hexDigitChar d) = some d := by
  interval_cases d <;> decide

theorem unescape_cons_bslash (rest : List Char) :
    unescapeChars ('\\' :: rest) =
      (match unescEsc rest with
       | some (d, k) => Option.map (d :: ·) (unescapeChars (rest.drop k))
       | none => none) := by
  rw [unescapeChars]
  rw [if_pos rfl]

theorem unescape_cons_plain {c : Char} (h2 : c ≠ '\\')
    (h3 : ¬(c.toNat < 32 ∨ c = '"')) (r : List Char) :
    unescapeChars (c :: r) = Option.map (c :: ·) (unescapeChars r) := by
  rw [unescapeChars, if_neg h2, if_neg h3]

theorem unescEsc_u (a b x y : Char) (r : List Char) :
    unescEsc ('u' :: a :: b :: x :: y :: r) = (do
      let v1 ← hexVal a
      let v2 ← hexVal b
      let v3 ← hexVal x
      let v4 ← hexVal y
      some (Char.ofNat (((v1 * 16 + v2) * 16 + v3) * 16 + v4), 5)) := rfl

/-- Escaping then unescaping a string payload recovers it exactly:
`json.dump`'s string encoding is lossless. -/
theorem unescapeChars_escapeChars :
    ∀ l : List Char, unescapeChars (escapeChars l) = some l := by
  intro l
  induction l with
  | nil =>
    show unescapeChars [] = some []
    rw [unescapeChars]
  | cons c t ih =>
    show unescapeChars (escapeChar c ++ escapeChars t) = some (c :: t)
    by_cases h1 : c = '"'
    · subst h1
      rw [show escapeChar '"' = ['\\', '"'] from by decide]
      show unescapeChars ('\\' :: '"' :: escapeChars t) = _
      rw [unescape_cons_bslash, show unescEsc ('"' :: escapeChars t) = some ('"', 1) from rfl]
      show Option.map ('"' :: ·) (unescapeChars (escapeChars t)) = _
      rw [ih]
      rfl
    · by_cases h2 : c = '\\'
      · subst h2
        rw [show escapeChar '\\' = ['\\', '\\'] from by decide]
        show unescapeChars ('\\' :: '\\' :: escapeChars t) = _
        rw [unescape_cons_bslash,
          show unescEsc ('\\' :: escapeChars t) = some ('\\', 1) from rfl]
        show Option.map ('\\' :: ·) (unescapeChars (escapeChars t)) = _
        rw [ih]
        rfl
      · by_cases h3 : c.toNat < 32
        · by_cases hb : c = Char.ofNat 8
          · subst hb
            rw [show escapeChar (Char.ofNat 8) = ['\\', 'b'] from by decide]
            show unescapeChars ('\\' :: 'b' :: escapeChars t) = _
            rw [unescape_cons_bslash,
              show unescEsc ('b' :: escapeChars t) = some (Char.ofNat 8, 1) from rfl]
            show Option.map (Char.ofNat 8 :: ·) (unescapeChars (escapeChars t)) = _
            rw [ih]
            rfl
          · by_cases ht9 : c = Char.ofNat 9
            · subst ht9
              rw [show escapeChar (Char.ofNat 9) = ['\\', 't'] from by decide]
              show unescapeChars ('\\' :: 't' :: escapeChars t) = _
              rw [unescape_cons_bslash,
                show unescEsc ('t' :: escapeChars t) = some (Char.ofNat 9, 1) from rfl]
              show Option.map (Char.ofNat 9 :: ·) (unescapeChars (escapeChars t)) = _
              rw [ih]
              rfl
            · by_cases hn : c = Char.ofNat 10
              · subst hn
                rw [show escapeChar (Char.ofNat 10) = ['\\', 'n'] from by decide]
                show unescapeChars ('\\' :: 'n' :: escapeChars t) = _
                rw [unescape_cons_bslash,
                  show unescEsc ('n' :: escapeChars t) = some (Char.ofNat 10, 1) from rfl]
                show Option.map (Char.ofNat 10 :: ·) (unescapeChars (escapeChars t)) = _
                rw [ih]
                rfl
              · by_cases hf : c = Char.ofNat 12
                · subst hf
                  rw [show escapeChar (Char.ofNat 12) = ['\\', 'f'] from by decide]
                  show unescapeChars ('\\' :: 'f' :: escapeChars t) = _
                  rw [unescape_cons_bslash,
                    show unescEsc ('f' :: escapeChars t) = some (Char.ofNat 12, 1) from rfl]
                  show Option.map (Char.ofNat 12 :: ·) (unescapeChars (escapeChars t)) = _
                  rw [ih]
                  rfl
                · by_cases hr : c = Char.ofNat 13
                  · subst hr
                    rw [show escapeChar (Char.ofNat 13) = ['\\', 'r'] from by decide]
                    show unescapeChars ('\\' :: 'r' :: escapeChars t) = _
                    rw [unescape_cons_bslash,
                      show unescEsc ('r' :: escapeChars t) = some (Char.ofNat 13, 1) from rfl]
                    show Option.map (Char.ofNat 13 :: ·) (unescapeChars (escapeChars t)) = _
                    rw [ih]
                    rfl
                  · have he : escapeChar c = ['\\', 'u', '0', '0',
                        hexDigitChar (c.toNat / 16), hexDigitChar (c.toNat % 16)] := by
                      unfold escapeChar
                      rw [if_neg h1, if_neg h2, if_pos h3, if_neg hb, if_neg ht9,
                        if_neg hn, if_neg hf, if_neg hr]
                    rw [he]
                    show unescapeChars ('\\' :: 'u' :: '0' :: '0' ::
                        hexDigitChar (c.toNat / 16) :: hexDigitChar (c.toNat % 16) ::
                        escapeChars t) = _
                    have hv1 : hexVal (hexDigitChar (c.toNat / 16)) =
                        some (c.toNat / 16) := hexVal_hexDigitChar (by omega)
                    have hv2 : hexVal (hexDigitChar (c.toNat % 16)) =
                        some (c.toNat % 16) := hexVal_hexDigitChar (by omega)
                    have h5 : unescEsc ('u' :: '0' :: '0' ::
                        hexDigitChar (c.toNat / 16) :: hexDigitChar (c.toNat % 16) ::
                        escapeChars t) =
                        some (Char.ofNat (((0 * 16 + 0) * 16 + c.toNat / 16) * 16 +
                          c.toNat % 16), 5) := by
                      rw [unescEsc_u]
                      rw [show hexVal '0' = some 0 from by decide]
                      rw [hv1, hv2]
                      rfl
                    rw [unescape_cons_bslash, h5]
                    show Option.map _ (unescapeChars (escapeChars t)) = _
                    rw [ih]
                    have harith : ((0 * 16 + 0) * 16 + c.toNat / 16) * 16 +
                        c.toNat % 16 = c.toNat := by omega
                    rw [harith, Char.ofNat_toNat]
                    rfl
        · rw [show escapeChar c = [c] from by
              unfold escapeChar
              rw [if_neg h1, if_neg h2, if_neg h3]]
          show unescapeChars (c :: escapeChars t) = _
          rw [unescape_cons_plain h2 (by tauto), ih]
          rfl

/-- One record survives the write/read cycle unchanged. -/
theorem decodeRecord_encodeRecord (r : Record) :
    decodeRecord (encodeRecord r) = some r := by
  simp only [encodeRecord, encodeStr, decodeRecord, unescapeChars_escapeChars,
    Option.bind_eq_bind, Option.some_bind]

/-- A list of records survives the write/read cycle unchanged. -/
theorem decodeRecords_map_encode (rs : List Record) :
    decodeRecords (rs.map encodeRecord) = some rs := by
  induction rs with
  | nil => rfl
  | cons r t ih =>
    show decodeRecords (encodeRecord r :: t.map encodeRecord) = some (r :: t)
    simp only [decodeRecords, decodeRecord_encodeRecord, ih,
      Option.bind_eq_bind, Option.some_bind]

/-! ## Claim theorems -/

/-- C2, counterexample to the claim as stated: for the text `"abc"` and
maximum length 2, the cleaned text (`"abc"` itself) is longer than the
maximum, yet the preview is `"ab..."`, whose body `"ab"` is neither the
whole cleaned text nor followed by a space in it (the next character is
`'c'`): the preview ends in the middle of the word `"abc"`. -/
theorem claim_C2_counterexample :
    2 < (cleanChars ("abc".data)).length ∧
    previewChars ("abc".data) 2 = ['a', 'b'] ++ ['.', '.', '.'] ∧
    ['a', 'b'] ≠ cleanChars ("abc".data) ∧
    (cleanChars ("abc".data))[2]? = some 'c' := by decide

/-- C2 (amended): when `create_preview` truncates and the truncated prefix
contains at least one space, the preview body is the prefix of the
cleaned text up to the last space of the truncated prefix — it never
ends in the middle of a word, the partial word being discarded at that
space.  (When the truncated prefix contains no space, the whole prefix
is kept and the preview may end mid-word.) -/
theorem claim_C2_amended (t : List Char) (maxLength : Nat)
    (hgt : maxLength < (cleanChars t).length)
    (hsp : ' ' ∈ (cleanChars t).take maxLength) :
    ∃ body w rest, previewChars t maxLength = body ++ ['.', '.', '.'] ∧
      (cleanChars t).take maxLength = body ++ ' ' :: w ∧ ' ' ∉ w ∧
      cleanChars t = body ++ ' ' :: (w ++ rest) := by
  obtain ⟨w, hw, hnw⟩ := rsplitBody_split hsp
  refine ⟨rsplitBody ((cleanChars t).take maxLength), w,
    (cleanChars t).drop maxLength, previewChars_of_gt hgt, hw, hnw, ?_⟩
  calc cleanChars t
      = (cleanChars t).take maxLength ++ (cleanChars t).drop maxLength :=
        (List.take_append_drop maxLength (cleanChars t)).symm
    _ = (rsplitBody ((cleanChars t).take maxLength) ++ ' ' :: w) ++
          (cleanChars t).drop maxLength := by
        conv_lhs => rw [hw]
    _ = rsplitBody ((cleanChars t).take maxLength) ++
          ' ' :: (w ++ (cleanChars t).drop maxLength) := by
        simp [List.append_assoc]

/-- Witness for C2 (amended) at the text `"ab cd ef"` with maximum 7. -/
theorem claim_C2_witness :
    ∃ body w rest, previewChars ("ab cd ef".data) 7 = body ++ ['.', '.', '.'] ∧
      (cleanChars ("ab cd ef".data)).take 7 = body ++ ' ' :: w ∧ ' ' ∉ w ∧
      cleanChars ("ab cd ef".data) = body ++ ' ' :: (w ++ rest) :=
  claim_C2_amended ("ab cd ef".data) 7 (by decide) (by decide)

/-- C3: `create_preview` first collapses whitespace runs and trims (the
cleaned text is clean, and only whitespace is altered); a cleaned text
at or under the maximum is returned unchanged; otherwise the preview
body (excluding the ellipsis) never exceeds the maximum. -/
theorem claim_C3 (t : List Char) (maxLength : Nat) :
    isCleanText (cleanChars t) = true ∧
    (cleanChars t).filter (fun c => !pyIsSpace c) =
      t.filter (fun c => !pyIsSpace c) ∧
    ((cleanChars t).length ≤ maxLength → previewChars t maxLength = cleanChars t) ∧
    (maxLength < (cleanChars t).length →
      ∃ body, previewChars t maxLength = body ++ ['.', '.', '.'] ∧
        body.length ≤ maxLength) := by
  refine ⟨isCleanText_cleanChars t, filter_cleanChars t,
    fun h => previewChars_of_le h, fun h => ?_⟩
  refine ⟨rsplitBody ((cleanChars t).take maxLength), previewChars_of_gt h, ?_⟩
  have h1 := rsplitBody_length_le ((cleanChars t).take maxLength)
  have h2 : ((cleanChars t).take maxLength).length ≤ maxLength := by
    rw [List.length_take]
    omega
  omega

/-- Witness for C3 at the text `"a  b"` with maxima 10 and 1. -/
theorem claim_C3_witness :
    previewChars ("a  b".data) 10 = cleanChars ("a  b".data) ∧
    ∃ body, previewChars ("a  b".data) 1 = body ++ ['.', '.', '.'] ∧
      body.length ≤ 1 :=
  ⟨(claim_C3 ("a  b".data) 10).2.2.1 (by decide),
   (claim_C3 ("a  b".data) 1).2.2.2 (by decide)⟩

/-- C9: on text that is already whitespace-collapsed, trimmed, and at or
under the maximum length, `create_preview` is the identity, so applying
it twice equals applying it once. -/
theorem claim_C9 (s : String) (maxLength : Nat)
    (hclean : isCleanText s.data = true) (hlen : s.data.length ≤ maxLength) :
    create_preview (create_preview s maxLength) maxLength =
      create_preview s maxLength := by
  have h2 : previewChars s.data maxLength = s.data := by
    have hc : cleanChars s.data = s.data := cleanChars_eq_self hclean
    rw [previewChars_of_le (by rw [hc]; exact hlen), hc]
  have h1 : create_preview s maxLength = s := by
    unfold create_preview
    rw [h2]
  rw [h1]
  exact h1

/-- Witness for C9 at the clean under-limit text `"hello world"`. -/
theorem claim_C9_witness :
    create_preview (create_preview "hello world" 200) 200 =
      create_preview "hello world" 200 :=
  claim_C9 "hello world" 200 (by decide) (by decide)

theorem contains_iff_mem_str {l : List String} {s : String} :
    l.contains s = true ↔ s ∈ l :=
  List.elem_iff

theorem extractFor_of_none {f : FsFile} (h : f.extractResult = none) :
    extractFor f = "" := by
  unfold extractFor extract_pdf_text extract_html_text extract_text_file
  rw [h]
  simp

/-- C1, counterexample to the claim as stated: a run that writes an index
but in which the first discovered file's copy fails produces one record
whose id list is `[2]`, not `[1]` — the ids are the discovery indices,
so a copy failure leaves a gap. -/
theorem claim_C1_counterexample :
    (index_recipes envCopyFail).indexWritten = true ∧
    (index_recipes envCopyFail).records.length = 1 ∧
    (index_recipes envCopyFail).records.map Record.id = [2] := by decide

/-- C1 (amended): in every run that writes an index the record ids are
strictly increasing in output order (unique, no repeats), and they are
exactly `1..N` when every discovered file's copy succeeds; a copy
failure leaves the skipped file's discovery index as a gap. -/
theorem claim_C1_amended (env : Env)
    (h : (index_recipes env).indexWritten = true) :
    ((index_recipes env).records.map Record.id).Pairwise (· < ·) ∧
    ((∀ f ∈ recipeFiles env.entries, f.copyOk = true) →
      (index_recipes env).records.map Record.id =
        List.range' 1 (recipeFiles env.entries).length) := by
  obtain ⟨hr, hm, _⟩ := index_recipes_written h
  rw [index_recipes_records_of_ok hr hm]
  exact ⟨buildAux_ids_sorted _ 1, fun hall => buildAux_ids_of_all_ok _ 1 hall⟩

/-- Witness for C1 (amended) on a clean two-file run. -/
theorem claim_C1_witness :
    ((index_recipes envTwoOk).records.map Record.id).Pairwise (· < ·) ∧
    (index_recipes envTwoOk).records.map Record.id =
      List.range' 1 (recipeFiles envTwoOk.entries).length := by
  have h := claim_C1_amended envTwoOk (by decide)
  exact ⟨h.1, h.2 (by decide)⟩

/-- C4: with an existing root and a created copy directory, the file at
discovery index `k` yields the record with id `k+1` and a copy if and
only if its copy succeeded; an extraction failure still yields a record,
with empty content; a copy failure leaves neither record nor copy. -/
theorem claim_C4 (env : Env) (hr : env.rootExists = true)
    (hm : env.mkdirOk = true) :
    (index_recipes env).records.length =
      (recipeFiles env.entries).countP (fun f => f.copyOk) ∧
    ∀ k f, (recipeFiles env.entries)[k]? = some f →
      (f.copyOk = true →
        mkRecord (k + 1) f ∈ (index_recipes env).records ∧
        (k + 1, safeFilename (k + 1) f.name) ∈ (index_recipes env).copies ∧
        (f.extractResult = none → (mkRecord (k + 1) f).content = "")) ∧
      (f.copyOk = false →
        (∀ r ∈ (index_recipes env).records, r.id ≠ k + 1) ∧
        (∀ p ∈ (index_recipes env).copies, p.1 ≠ k + 1)) := by
  rw [index_recipes_records_of_ok hr hm, index_recipes_copies_of_ok hr hm]
  refine ⟨buildAux_length _ 1, ?_⟩
  intro k f hk
  constructor
  · intro hcopy
    refine ⟨?_, ?_, ?_⟩
    · exact (buildAux_records_mem _ 1 _).mpr ⟨k, f, hk, hcopy, by rw [Nat.add_comm]⟩
    · exact (buildAux_copies_mem _ 1 _).mpr ⟨k, f, hk, hcopy, by rw [Nat.add_comm]⟩
    · intro hex
      show extractFor f = ""
      exact extractFor_of_none hex
  · intro hcopy
    constructor
    · intro r hrmem hid
      obtain ⟨k', f', hk', hcopy', hreq⟩ := (buildAux_records_mem _ 1 _).mp hrmem
      have hid' : r.id = 1 + k' := by rw [hreq]; rfl
      have hkk : k' = k := by omega
      subst hkk
      rw [hk] at hk'
      have hff : f = f' := by simpa using hk'
      rw [← hff, hcopy] at hcopy'
      simp at hcopy'
    · intro p hpmem hid
      obtain ⟨k', f', hk', hcopy', hpeq⟩ := (buildAux_copies_mem _ 1 _).mp hpmem
      have hid' : p.1 = 1 + k' := by rw [hpeq]
      have hkk : k' = k := by omega
      subst hkk
      rw [hk] at hk'
      have hff : f = f' := by simpa using hk'
      rw [← hff, hcopy] at hcopy'
      simp at hcopy'

/-- Witness for C4 on a mixed run: the extraction-failed file at
discovery index 2 is still recorded (with empty content) and the
copy-failed file at discovery index 1 leaves no record. -/
theorem claim_C4_witness :
    mkRecord 3 fileOkB ∈ (index_recipes envMixed).records ∧
    (mkRecord 3 fileOkB).content = "" ∧
    (∀ r ∈ (index_recipes envMixed).records, r.id ≠ 2) := by
  have h := claim_C4 envMixed rfl rfl
  have h3 := h.2 2 fileOkB (by decide)
  have h1 := h.2 1 fileCopyFail (by decide)
  exact ⟨(h3.1 rfl).1, (h3.1 rfl).2.2 rfl, (h1.2 rfl).1⟩

/-- C5, counterexample to the claim as stated: root-path nonexistence is
not the only condition that aborts the run — with an existing root but a
failing copy-directory creation, the run aborts with an uncaught
exception and writes no index. -/
theorem claim_C5_counterexample :
    envMkdirFail.rootExists = true ∧
    (index_recipes envMkdirFail).uncaught = true ∧
    (index_recipes envMkdirFail).indexWritten = false := by decide

/-- C5 (amended): a missing root reports the error and returns before any
processing — no directory creation, no copies, no records, no index, no
crash; any other abort is an uncaught exception from the unguarded
copy-directory creation or index write, never from per-file failures. -/
theorem claim_C5_amended (env : Env) :
    (env.rootExists = false →
      index_recipes env =
        { errorReported := true, mkdirCalled := false, copies := [],
          records := [], indexWritten := false, uncaught := false }) ∧
    ((index_recipes env).uncaught = true →
      env.rootExists = true ∧ (env.mkdirOk = false ∨ env.writeOk = false)) := by
  constructor
  · intro hr
    simp [index_recipes, hr]
  · intro hu
    cases hr : env.rootExists <;> cases hm : env.mkdirOk <;> cases hw : env.writeOk <;>
      simp [index_recipes, hr, hm, hw] at hu ⊢

/-- Witness for C5 (amended) on a missing-root run and an mkdir-failure
run. -/
theorem claim_C5_witness :
    index_recipes envRootMissing =
      { errorReported := true, mkdirCalled := false, copies := [],
        records := [], indexWritten := false, uncaught := false } ∧
    (envMkdirFail.rootExists = true ∧
      (envMkdirFail.mkdirOk = false ∨ envMkdirFail.writeOk = false)) :=
  ⟨(claim_C5_amended envRootMissing).1 (by decide),
   (claim_C5_amended envMkdirFail).2 (by decide)⟩

/-- On every selected file, the source's extension dispatch agrees with
the spec's closed `type` mapping. -/
theorem specTypeOf_fileTypeFor {entries : List FsFile} {f : FsFile}
    (hf : f ∈ recipeFiles entries) :
    specTypeOf (suffixLower f.name) = some (fileTypeFor f) := by
  have h2 := (List.mem_filter.mp hf).2
  unfold isRecipeFile at h2
  rw [Bool.and_eq_true] at h2
  have h3 : suffixLower f.name ∈ pdf_ext ++ html_ext ++ text_ext :=
    contains_iff_mem_str.mp h2.2
  simp [pdf_ext, html_ext, text_ext] at h3
  unfold fileTypeFor specTypeOf
  rcases h3 with h | h | h | h | h <;> rw [h] <;> decide

/-- C6: an entry under the root is selected if and only if it is a
regular file whose lowercased extension is on the allow-list; on every
selected file the source's type dispatch agrees with the spec's closed
mapping (`.pdf` → `pdf`, `.html`/`.htm` → `html`, `.txt`/`.md` →
`text`); and every record's `type` field is that of a selected file. -/
theorem claim_C6 (entries : List FsFile) (f : FsFile) :
    (f ∈ recipeFiles entries ↔
      f ∈ entries ∧ f.isFile = true ∧
        suffixLower f.name ∈ pdf_ext ++ html_ext ++ text_ext) ∧
    (f ∈ recipeFiles entries →
      specTypeOf (suffixLower f.name) = some (fileTypeFor f)) ∧
    (∀ n r, r ∈ (buildAux n (recipeFiles entries)).1 →
      ∃ g ∈ recipeFiles entries, r.type = fileTypeFor g ∧
        specTypeOf (suffixLower g.name) = some r.type) := by
  refine ⟨?_, fun hf => specTypeOf_fileTypeFor hf, ?_⟩
  · unfold recipeFiles
    rw [List.mem_filter]
    unfold isRecipeFile
    rw [Bool.and_eq_true]
    constructor
    · rintro ⟨h1, h2, h3⟩
      exact ⟨h1, h2, contains_iff_mem_str.mp h3⟩
    · rintro ⟨h1, h2, h3⟩
      exact ⟨h1, h2, contains_iff_mem_str.mpr h3⟩
  · intro n r hr
    obtain ⟨k, g, hk, _, hreq⟩ := (buildAux_records_mem _ n _).mp hr
    have hg : g ∈ recipeFiles entries := List.getElem?_mem hk
    have htype : r.type = fileTypeFor g := by rw [hreq]; rfl
    exact ⟨g, hg, htype, by rw [htype]; exact specTypeOf_fileTypeFor hg⟩

/-- Witness for C6 on the mixed run: the `.txt` file is selected and
typed per the spec, the `.docx` file is rejected. -/
theorem claim_C6_witness :
    fileOkA ∈ recipeFiles envMixed.entries ∧
    specTypeOf (suffixLower fileOkA.name) = some (fileTypeFor fileOkA) ∧
    fileOther ∉ recipeFiles envMixed.entries := by
  have h1 := claim_C6 envMixed.entries fileOkA
  have h2 := claim_C6 envMixed.entries fileOther
  refine ⟨h1.1.mpr (by decide), h1.2.1 (h1.1.mpr (by decide)), ?_⟩
  intro hmem
  have hx := h2.1.mp hmem
  revert hx
  decide

/-- C7: every materialized copy of a run is named by the 3-digit
zero-padded 1-based discovery index, an underscore, and the original
filename with spaces replaced by underscores; distinct discovery indices
give distinct names whatever the filenames, so the copy names of one
run are pairwise distinct. -/
theorem claim_C7 (env : Env) :
    (∀ idx name, safeChars idx name =
      pad3 idx ++ '_' :: name.map spaceToUnderscore) ∧
    (∀ i j : Nat, ∀ n m : String, i ≠ j → safeFilename i n ≠ safeFilename j m) ∧
    ((index_recipes env).copies.map Prod.snd).Nodup ∧
    (∀ p ∈ (index_recipes env).copies, ∃ k f,
      (recipeFiles env.entries)[k]? = some f ∧ f.copyOk = true ∧
      p = (k + 1, safeFilename (k + 1) f.name)) := by
  refine ⟨safeChars_formula, fun i j n m h => safeFilename_inj h n m, ?_, ?_⟩
  · rcases @index_recipes_copies_empty_cases env with hc | hc
    · rw [hc]
      have hp := buildAux_copies_fst_sorted (recipeFiles env.entries) 1
      show ((buildAux 1 (recipeFiles env.entries)).2.map Prod.snd).Pairwise (· ≠ ·)
      rw [List.pairwise_map]
      refine List.Pairwise.imp_of_mem ?_ hp
      intro p q hpmem hqmem hlt
      obtain ⟨k1, f1, _, _, hps⟩ := (buildAux_copies_mem _ 1 p).mp hpmem
      obtain ⟨k2, f2, _, _, hqs⟩ := (buildAux_copies_mem _ 1 q).mp hqmem
      rw [hps, hqs] at hlt ⊢
      exact safeFilename_inj (by omega) _ _
    · rw [hc]
      simp
  · intro p hp
    rcases @index_recipes_copies_empty_cases env with hc | hc
    · rw [hc] at hp
      obtain ⟨k, f, h1, h2, h3⟩ := (buildAux_copies_mem _ 1 p).mp hp
      exact ⟨k, f, h1, h2, by rw [h3, Nat.add_comm]⟩
    · rw [hc] at hp
      simp at hp

/-- Witness for C7: the formula on a name with a space, injectivity at
distinct indices, and distinct copy names in the mixed run. -/
theorem claim_C7_witness :
    safeChars 7 ("my pie.txt".data) =
      pad3 7 ++ '_' :: ("my pie.txt".data).map spaceToUnderscore ∧
    safeFilename 1 "x.txt" ≠ safeFilename 2 "x.txt" ∧
    ((index_recipes envMixed).copies.map Prod.snd).Nodup := by
  have h := claim_C7 envMixed
  exact ⟨h.1 7 ("my pie.txt".data), h.2.1 1 2 "x.txt" "x.txt" (by omega), h.2.2.1⟩

/-- C8: serializing a run's record collection as the JSON index and
parsing it back yields records with identical id, filename, file_path,
type, content, preview and size, in the same order. -/
theorem claim_C8 (rs : List Record) : decodeIndex (encodeIndex rs) = some rs := by
  show decodeRecords (rs.map encodeRecord) = some rs
  exact decodeRecords_map_encode rs

/-- C10, counterexample to the claim as stated: with the required
argument present but an output directory in which the copy-subdirectory
creation fails, the process dies with an uncaught exception and exits
nonzero. -/
theorem claim_C10_counterexample : mainExitCode 2 envMkdirFail = 1 := by decide

/-- C10 (amended): once the required argument is present the process
exits zero regardless of per-file extraction or copy failures — and
even for a missing root — provided the two unguarded filesystem
operations (copy-directory creation and index write) succeed. -/
theorem claim_C10_amended (argc : Nat) (env : Env) (hargc : 2 ≤ argc)
    (hm : env.mkdirOk = true) (hw : env.writeOk = true) :
    mainExitCode argc env = 0 := by
  unfold mainExitCode
  rw [if_neg (by omega)]
  cases hr : env.rootExists <;> simp [index_recipes, hr, hm, hw]

/-- Witness for C10 (amended) on the mixed run, which contains both an
extraction failure and a copy failure. -/
theorem claim_C10_witness : mainExitCode 2 envMixed = 0 :=
  claim_C10_amended 2 envMixed (by omega) rfl rfl

end RecipeIndexer
